import Mathlib

/-!
# openslides-wsproxy: the proxy handler `ServeHTTP` and `sendLoop`

A shallow embedding of `internal/wsproxy/wsproxy.go`.

* The calls a task makes are recorded as a list of `Event`s (a call together
  with what it returned).  The answers of the collaborators that are not part of
  the file (the websocket connection `conn`, the bridge connection `wsConn`, the
  outbound channel) are inputs: a list of results for `conn.ReadMessage`, a
  function of the call index for `conn.WriteMessage` and `wsConn.fromClient`,
  the list of payloads the outbound channel delivers and whether it is closed
  afterwards.
* `readLoop` / `readTask` embed the goroutine started by `ServeHTTP`,
  `sendLoop` embeds `sendLoop`, `mainTask` embeds the body of `ServeHTTP`.
* The two tasks run interleaved: `step` lets one task perform its next call,
  `run` follows a schedule.  `go`, `close(readDone)` and `<-readDone` are the
  only synchronisation between them, as in the source.
-/

namespace WSProxy

/-- A message payload, `[]byte`. -/
abbrev Bytes := List UInt8

/-- The constant `websocket.TextMessage`. -/
def TextMessage : Nat := 1

/-- The constant `websocket.BinaryMessage`. -/
def BinaryMessage : Nat := 2

/-- Go `error` values as far as the handler looks at them: a
`*websocket.CloseError`, an error that wraps nothing, and
`fmt.Errorf(format, inner)` with a `%w` verb in `format`. -/
inductive GoError where
  | closeError (code : Int) (text : String)
  | leaf (text : String)
  | wrapped (format : String) (inner : GoError)
  deriving DecidableEq, Repr

/-- The test `errors.As(err, &closeErr)` with `closeErr : *websocket.CloseError`:
the chain of `err` is followed through `Unwrap` until a `CloseError` is found. -/
def errorsAsCloseError : GoError → Bool
  | .closeError _ _ => true
  | .leaf _ => false
  | .wrapped _ inner => errorsAsCloseError inner

/-- Modelled from the spec: the type `clientError` is declared outside
`wsproxy.go`; the handler only builds it as `clientError{err}`.  An error handed
to `wsConn.eventError` is either a plain error or such a client-protocol
error. -/
inductive Reported where
  | plain (err : GoError)
  | clientError (err : GoError)
  deriving DecidableEq, Repr

/-- What one call of `conn.ReadMessage()` returns: a message (kind and payload,
`err == nil`) or an error. -/
inductive ReadResult where
  | msg (messageType : Nat) (p : Bytes)
  | err (e : GoError)
  deriving DecidableEq, Repr

/-- The calls made by `ServeHTTP`, its goroutine and `sendLoop`, each with the
value it returned.  `connClose` stands for `conn.Close()`. -/
inductive Event where
  | upgrade (err : Option GoError)
  | withCancel
  | newWSConnection
  | makeReadDone
  | goRead
  | readMessage (r : ReadResult)
  | eventError (e : Reported)
  | fromClient (p : Bytes) (err : Option GoError)
  | wsClose
  | closeReadDone
  | toClient
  | recvOut (p : Option Bytes)
  | writeMessage (messageType : Nat) (p : Bytes) (err : Option GoError)
  | logPrintf (err : GoError)
  | recvReadDone
  | cancel
  | connClose
  | ret
  deriving DecidableEq, Repr

/-- The part of the read loop's body after a successful `conn.ReadMessage()`
(lines 72-77): a binary message is reported, then the payload is handed to
`wsConn.fromClient`, whose error (if any) is reported.  `fc i p` is what the
`i`-th call `wsConn.fromClient(p)` returns. -/
def handleMessage (fc : Nat → Bytes → Option GoError) (i : Nat) (messageType : Nat)
    (p : Bytes) : List Event :=
  (if messageType = BinaryMessage then
      [Event.eventError (.clientError (.leaf "binary messages not supported"))]
    else []) ++
  (match fc i p with
    | some e =>
      [Event.fromClient p (some e),
       Event.eventError (.plain (.wrapped "processing message from client: %w" e))]
    | none => [Event.fromClient p none])

/-- The `for` loop of the goroutine (lines 61-78), run against the results that
the successive calls of `conn.ReadMessage()` return.  The result is the list of
calls made and whether the loop was left (`true`), or is still blocked in
`conn.ReadMessage()` because the connection delivers nothing more (`false`). -/
def readLoop (fc : Nat → Bytes → Option GoError) : Nat → List ReadResult → List Event × Bool
  | _, [] => ([], false)
  | _, .err e :: _ =>
    if errorsAsCloseError e then ([Event.readMessage (.err e)], true)
    else
      ([Event.readMessage (.err e),
        Event.eventError (.plain (.wrapped "read websocket message: %w" e))], true)
  | i, .msg messageType p :: rest =>
    let r := readLoop fc (i + 1) rest
    (Event.readMessage (.msg messageType p) :: handleMessage fc i messageType p ++ r.1, r.2)

/-- The goroutine of `ServeHTTP` (lines 57-79): the loop, and when the loop is
left the deferred calls in reverse order of their `defer` statements, first
`wsConn.Close()`, then `close(readDone)`. -/
def readTask (fc : Nat → Bytes → Option GoError) (feed : List ReadResult) : List Event :=
  let r := readLoop fc 0 feed
  if r.2 then r.1 ++ [Event.wsClose, Event.closeReadDone] else r.1

/-- How a call of `sendLoop` ends: it returns an error value (`none` is `nil`),
or it stays blocked receiving from a channel that is neither fed nor closed. -/
inductive Outcome where
  | returned (err : Option GoError)
  | blocked
  deriving DecidableEq, Repr

/-- The function `sendLoop` (lines 87-94).  `out` is the list of payloads the
channel delivers, `closes` whether the channel is closed after them, and
`wm i kind p` what the `i`-th call `conn.WriteMessage(kind, p)` returns. -/
def sendLoop (wm : Nat → Nat → Bytes → Option GoError) (closes : Bool) :
    Nat → List Bytes → List Event × Outcome
  | _, [] => if closes then ([Event.recvOut none], .returned none) else ([], .blocked)
  | i, p :: rest =>
    match wm i TextMessage p with
    | some e =>
      ([Event.recvOut (some p), Event.writeMessage TextMessage p (some e)],
       .returned (some (.wrapped "sending message: %w" e)))
    | none =>
      let r := sendLoop wm closes (i + 1) rest
      (Event.recvOut (some p) :: Event.writeMessage TextMessage p none :: r.1, r.2)

/-- The arguments of the calls of `wsConn.fromClient`, in call order. -/
def fromClientArgs : List Event → List Bytes
  | [] => []
  | .fromClient p _ :: es => p :: fromClientArgs es
  | _ :: es => fromClientArgs es

/-- The backend stream when `fromClient` appends its argument to it: the bytes
of all `fromClient` calls, in call order. -/
def backendBytes (es : List Event) : Bytes := (fromClientArgs es).flatten

/-- The calls of `conn.WriteMessage` (kind, payload, result), in call order. -/
def writeCalls : List Event → List (Nat × Bytes × Option GoError)
  | [] => []
  | .writeMessage k p r :: es => (k, p, r) :: writeCalls es
  | _ :: es => writeCalls es

/-- The errors handed to `wsConn.eventError`, in call order. -/
def reported : List Event → List Reported
  | [] => []
  | .eventError e :: es => e :: reported es
  | _ :: es => reported es

/-- The client-protocol errors among the reported errors. -/
def clientErrors (es : List Event) : List Reported :=
  (reported es).filter (fun e => match e with | .clientError _ => true | .plain _ => false)

/-- The messages read before the first read error. -/
def msgsBeforeError : List ReadResult → List (Nat × Bytes)
  | [] => []
  | .err _ :: _ => []
  | .msg k p :: rest => (k, p) :: msgsBeforeError rest

/-- The read results of a list of messages (kind, payload). -/
def asMsgs (ms : List (Nat × Bytes)) : List ReadResult :=
  ms.map (fun m => ReadResult.msg m.1 m.2)

/-- The calls `sendLoop` makes for one payload whose write succeeds. -/
def sentOk (p : Bytes) : List Event :=
  [Event.recvOut (some p), Event.writeMessage TextMessage p none]

/-! ### The two tasks of `ServeHTTP` -/

/-- The answers of everything `ServeHTTP` talks to: the error of
`upgrader.Upgrade`, the results of the successive `conn.ReadMessage` calls (when
they are used up the connection stays silent and open), the results of
`wsConn.fromClient`, the payloads the channel `wsConn.toClient()` delivers and
whether it is closed after them, and the results of `conn.WriteMessage`. -/
structure Inputs where
  upgradeErr : Option GoError
  feed : List ReadResult
  fc : Nat → Bytes → Option GoError
  out : List Bytes
  closes : Bool
  wm : Nat → Nat → Bytes → Option GoError

/-- The body of `ServeHTTP` on the calling task (lines 44-85) as the list of
calls it makes: a failed upgrade returns at once; otherwise the context, the
bridge connection and `readDone` are made, the goroutine is started,
`sendLoop(conn, wsConn.toClient())` runs, its error is logged, `readDone` is
awaited and the function returns after the deferred `cancel()`.  When `sendLoop`
stays blocked, nothing follows it. -/
def mainTask (inp : Inputs) : List Event :=
  match inp.upgradeErr with
  | some e => [Event.upgrade (some e), Event.ret]
  | none =>
    let r := sendLoop inp.wm inp.closes 0 inp.out
    [Event.upgrade none, Event.withCancel, Event.newWSConnection, Event.makeReadDone,
      Event.goRead, Event.toClient] ++ r.1 ++
      (match r.2 with
        | .blocked => []
        | .returned none => [Event.recvReadDone, Event.cancel, Event.ret]
        | .returned (some e) =>
          [Event.logPrintf e, Event.recvReadDone, Event.cancel, Event.ret])

/-- The two tasks: the one that calls `ServeHTTP` and the goroutine it starts. -/
inductive Task where
  | main
  | reader
  deriving DecidableEq, Repr

/-- A state of one execution of `ServeHTTP`: the calls each task has still to
make, whether the goroutine has been started, whether `readDone` is closed, and
the calls made so far, oldest first. -/
structure State where
  main : List Event
  reader : List Event
  started : Bool
  readDone : Bool
  log : List (Task × Event)

/-- The state in which `ServeHTTP` is entered. -/
def init (inp : Inputs) : State :=
  { main := mainTask inp, reader := readTask inp.fc inp.feed, started := false,
    readDone := false, log := [] }

/-- One task makes its next call.  The main task cannot pass `<-readDone` before
`readDone` is closed; the goroutine cannot move before the `go` statement;
`close(readDone)` closes the channel.  `none`: the task cannot move. -/
def step (t : Task) (s : State) : Option State :=
  match t with
  | .main =>
    match s.main with
    | [] => none
    | e :: rest =>
      if e = Event.recvReadDone ∧ s.readDone = false then none
      else
        some { s with main := rest, started := s.started || decide (e = Event.goRead),
                      log := s.log ++ [(Task.main, e)] }
  | .reader =>
    if s.started then
      match s.reader with
      | [] => none
      | e :: rest =>
        some { s with reader := rest, readDone := s.readDone || decide (e = Event.closeReadDone),
                      log := s.log ++ [(Task.reader, e)] }
    else none

/-- An execution along a schedule; a task that cannot move when it is scheduled
is skipped. -/
def run : List Task → State → State
  | [], s => s
  | t :: ts, s =>
    match step t s with
    | some s2 => run ts s2
    | none => run ts s

/-- The calls one task has made, in order. -/
def doneBy (t : Task) (log : List (Task × Event)) : List Event :=
  (log.filter (fun x => decide (x.1 = t))).map Prod.snd

/-- The event occurs in the list at most as its last element. -/
def OnlyLast (c : Event) : List Event → Prop
  | [] => True
  | e :: rest => (e = c → rest = []) ∧ OnlyLast c rest

/-- The calls made inside `sendLoop`. -/
def Event.isSendCall : Event → Bool
  | .recvOut _ => true
  | .writeMessage _ _ _ => true
  | _ => false

/-- The calls made inside the read loop. -/
def Event.isReadCall : Event → Bool
  | .readMessage _ => true
  | .eventError _ => true
  | .fromClient _ _ => true
  | _ => false

/-- What holds in every state an execution of `ServeHTTP` with a successful
upgrade reaches. -/
structure Inv (inp : Inputs) (s : State) : Prop where
  mainLast : OnlyLast Event.ret s.main
  readerLast : OnlyLast Event.closeReadDone s.reader
  doneMain : doneBy Task.main s.log ++ s.main = mainTask inp
  doneReader : doneBy Task.reader s.log ++ s.reader = readTask inp.fc inp.feed
  closedIff : s.readDone = true ↔ (Task.reader, Event.closeReadDone) ∈ s.log
  closedEnd : s.readDone = true → s.reader = []
  retEnd : (Task.main, Event.ret) ∈ s.log →
    s.main = [] ∧ s.reader = [] ∧ s.readDone = true ∧
      ∃ pre, s.log = pre ++ [(Task.main, Event.ret)]
  waited : (Task.main, Event.ret) ∉ s.log → Event.recvReadDone ∉ s.main →
    Event.ret ∈ s.main → s.readDone = true
  notStarted : s.started = false →
    ∃ pfx tl, s.main = pfx ++ Event.goRead :: tl ∧ Event.recvReadDone ∉ pfx
  readerPending : s.readDone = false → Event.closeReadDone ∈ readTask inp.fc inp.feed →
    Event.closeReadDone ∈ s.reader
  retPending : (Task.main, Event.ret) ∉ s.log → Event.ret ∈ mainTask inp → Event.ret ∈ s.main
  size : s.log.length + s.main.length + s.reader.length =
    (mainTask inp).length + (readTask inp.fc inp.feed).length

/-- The client sends the text message "ping" and then closes; the backend
answers "pong" and ends its stream; every call succeeds. -/
def pingPong : Inputs :=
  { upgradeErr := none
    feed := [.msg TextMessage [0x70, 0x69, 0x6e, 0x67], .err (.closeError 1000 "")]
    fc := fun _ _ => none
    out := [[0x70, 0x6f, 0x6e, 0x67]]
    closes := true
    wm := fun _ _ _ => none }

/-- A schedule for `pingPong`: the main task runs up to its first receive, the
goroutine forwards "ping", the main task writes "pong" and waits for `readDone`,
the goroutine sees the close and ends, the main task returns. -/
def pingPongSchedule : List Task :=
  List.replicate 6 Task.main ++ List.replicate 2 Task.reader ++ List.replicate 3 Task.main ++
    List.replicate 3 Task.reader ++ List.replicate 3 Task.main

/-- The backend ends its stream at once (the outbound channel is closed) while
the client stays connected and silent: `conn.ReadMessage` never returns. -/
def idleClient : Inputs :=
  { upgradeErr := none
    feed := []
    fc := fun _ _ => none
    out := []
    closes := true
    wm := fun _ _ _ => none }

/-- The client closes at once and the backend ends its stream. -/
def closingClient : Inputs :=
  { upgradeErr := none
    feed := [.err (.closeError 1000 "")]
    fc := fun _ _ => none
    out := []
    closes := true
    wm := fun _ _ _ => none }

/-- A schedule for `closingClient` that ends with the return of `ServeHTTP`. -/
def closingSchedule : List Task :=
  List.replicate 7 Task.main ++ List.replicate 3 Task.reader ++ List.replicate 3 Task.main

/-- Results of `conn.WriteMessage` in which the second call (index 1) fails. -/
def failSecondWrite : Nat → Nat → Bytes → Option GoError :=
  fun i _ _ => if i = 1 then some (.leaf "broken pipe") else none

/-! ## The read loop -/

theorem fromClientArgs_append (a b : List Event) :
    fromClientArgs (a ++ b) = fromClientArgs a ++ fromClientArgs b := by
  induction a with
  | nil => rfl
  | cons e es ih => cases e <;> simp [fromClientArgs, ih]

theorem fromClientArgs_handleMessage (fc : Nat → Bytes → Option GoError) (i k : Nat)
    (p : Bytes) : fromClientArgs (handleMessage fc i k p) = [p] := by
  unfold handleMessage
  rw [fromClientArgs_append]
  cases fc i p <;> by_cases hk : k = BinaryMessage <;> simp [hk, fromClientArgs]

theorem fromClientArgs_readLoop (fc : Nat → Bytes → Option GoError) (feed : List ReadResult) :
    ∀ i, fromClientArgs (readLoop fc i feed).1 = (msgsBeforeError feed).map Prod.snd := by
  induction feed with
  | nil => intro i; rfl
  | cons r rest ih =>
    intro i
    cases r with
    | err e =>
      by_cases hc : errorsAsCloseError e = true <;>
        simp [readLoop, hc, fromClientArgs, msgsBeforeError]
    | msg k p =>
      simp [readLoop, fromClientArgs, msgsBeforeError, fromClientArgs_append,
        fromClientArgs_handleMessage, ih]

theorem readLoop_asMsgs_append (fc : Nat → Bytes → Option GoError) (pre : List (Nat × Bytes))
    (tl : List ReadResult) :
    ∀ i, readLoop fc i (asMsgs pre ++ tl) =
      ((readLoop fc i (asMsgs pre)).1 ++ (readLoop fc (i + pre.length) tl).1,
       (readLoop fc (i + pre.length) tl).2) := by
  induction pre with
  | nil => intro i; simp [asMsgs, readLoop]
  | cons m ms ih =>
    intro i
    have h := ih (i + 1)
    have e : i + 1 + ms.length = i + (ms.length + 1) := by omega
    rw [e] at h
    simp only [asMsgs] at h
    simp [asMsgs, readLoop, h]

theorem fromClientArgs_readTask (fc : Nat → Bytes → Option GoError) (feed : List ReadResult) :
    fromClientArgs (readTask fc feed) = (msgsBeforeError feed).map Prod.snd := by
  unfold readTask
  by_cases h : (readLoop fc 0 feed).2 = true
  · simp [h, fromClientArgs_append, fromClientArgs, fromClientArgs_readLoop]
  · simp [h, fromClientArgs_readLoop]

theorem wsClose_not_mem_handleMessage (fc : Nat → Bytes → Option GoError) (i k : Nat)
    (p : Bytes) : Event.wsClose ∉ handleMessage fc i k p := by
  unfold handleMessage
  cases fc i p <;> by_cases hk : k = BinaryMessage <;> simp [hk]

theorem wsClose_not_mem_readLoop (fc : Nat → Bytes → Option GoError) (feed : List ReadResult) :
    ∀ i, Event.wsClose ∉ (readLoop fc i feed).1 := by
  induction feed with
  | nil => intro i; simp [readLoop]
  | cons r rest ih =>
    intro i
    cases r with
    | err e => by_cases hc : errorsAsCloseError e = true <;> simp [readLoop, hc]
    | msg k p => simp [readLoop, wsClose_not_mem_handleMessage, ih]

theorem closeReadDone_not_mem_handleMessage (fc : Nat → Bytes → Option GoError) (i k : Nat)
    (p : Bytes) : Event.closeReadDone ∉ handleMessage fc i k p := by
  unfold handleMessage
  cases fc i p <;> by_cases hk : k = BinaryMessage <;> simp [hk]

theorem closeReadDone_not_mem_readLoop (fc : Nat → Bytes → Option GoError)
    (feed : List ReadResult) : ∀ i, Event.closeReadDone ∉ (readLoop fc i feed).1 := by
  induction feed with
  | nil => intro i; simp [readLoop]
  | cons r rest ih =>
    intro i
    cases r with
    | err e => by_cases hc : errorsAsCloseError e = true <;> simp [readLoop, hc]
    | msg k p => simp [readLoop, closeReadDone_not_mem_handleMessage, ih]

/-- The loop is left exactly when one of the read results is an error. -/
theorem readLoop_left_iff (fc : Nat → Bytes → Option GoError) (feed : List ReadResult) :
    ∀ i, (readLoop fc i feed).2 = true ↔ ∃ e, ReadResult.err e ∈ feed := by
  induction feed with
  | nil => intro i; simp [readLoop]
  | cons r rest ih =>
    intro i
    cases r with
    | err e => by_cases hc : errorsAsCloseError e = true <;> simp [readLoop, hc]
    | msg k p => simp [readLoop, ih]

/-- C1: in the read task, `wsConn.fromClient` is called exactly once per message
that `conn.ReadMessage` returns before its first error, in read order and with the
payload unchanged, whatever the earlier `fromClient` calls returned; a backend
stream to which `fromClient` appends therefore holds the concatenation of the
payloads. -/
theorem readTask_forwards_each_message (fc : Nat → Bytes → Option GoError)
    (feed : List ReadResult) :
    fromClientArgs (readTask fc feed) = (msgsBeforeError feed).map Prod.snd ∧
    backendBytes (readTask fc feed) = ((msgsBeforeError feed).map Prod.snd).flatten := by
  refine ⟨fromClientArgs_readTask fc feed, ?_⟩
  unfold backendBytes
  rw [fromClientArgs_readTask]

/-- C4: a binary message in the read loop yields exactly one client-protocol
error event ("binary messages not supported"), no `wsConn.Close`, and the loop
goes on with the next read: every later message before the first read error is
passed to `fromClient`. -/
theorem binary_message_is_reported_and_loop_goes_on (fc : Nat → Bytes → Option GoError)
    (pre : List (Nat × Bytes)) (p : Bytes) (post : List ReadResult) :
    readLoop fc 0 (asMsgs pre ++ ReadResult.msg BinaryMessage p :: post) =
      ((readLoop fc 0 (asMsgs pre)).1 ++
         Event.readMessage (.msg BinaryMessage p) ::
           handleMessage fc pre.length BinaryMessage p ++ (readLoop fc (pre.length + 1) post).1,
       (readLoop fc (pre.length + 1) post).2) ∧
    clientErrors (handleMessage fc pre.length BinaryMessage p) =
      [Reported.clientError (.leaf "binary messages not supported")] ∧
    Event.wsClose ∉ handleMessage fc pre.length BinaryMessage p ∧
    fromClientArgs (readLoop fc (pre.length + 1) post).1 =
      (msgsBeforeError post).map Prod.snd := by
  refine ⟨?_, ?_, wsClose_not_mem_handleMessage _ _ _ _, fromClientArgs_readLoop _ _ _⟩
  · rw [readLoop_asMsgs_append]
    simp [readLoop]
  · unfold handleMessage
    cases fc pre.length p <;> simp [clientErrors, reported]

/-- C4, the scenario: a binary frame `0xDEADBEEF`, then the text message
"hello", then a close error. -/
theorem binary_then_hello :
    readTask (fun _ _ => none)
      [.msg BinaryMessage [0xDE, 0xAD, 0xBE, 0xEF], .msg TextMessage [0x68, 0x65, 0x6c, 0x6c, 0x6f],
       .err (.closeError 1000 "")] =
      [.readMessage (.msg BinaryMessage [0xDE, 0xAD, 0xBE, 0xEF]),
       .eventError (.clientError (.leaf "binary messages not supported")),
       .fromClient [0xDE, 0xAD, 0xBE, 0xEF] none,
       .readMessage (.msg TextMessage [0x68, 0x65, 0x6c, 0x6c, 0x6f]),
       .fromClient [0x68, 0x65, 0x6c, 0x6c, 0x6f] none,
       .readMessage (.err (.closeError 1000 "")),
       .wsClose, .closeReadDone] ∧
    clientErrors (handleMessage (fun _ _ => none) 0 BinaryMessage [0xDE, 0xAD, 0xBE, 0xEF]) =
      [Reported.clientError (.leaf "binary messages not supported")] :=
  ⟨by decide,
   (binary_message_is_reported_and_loop_goes_on (fun _ _ => none) [] [0xDE, 0xAD, 0xBE, 0xEF]
      [.msg TextMessage [0x68, 0x65, 0x6c, 0x6c, 0x6f], .err (.closeError 1000 "")]).2.1⟩

/-- C5: the payload of a binary message is handed to `wsConn.fromClient`: for
the reads "binary 0xDEADBEEF, close error" the calls of `fromClient` are exactly
the one with that payload. -/
theorem binary_payload_is_passed_to_fromClient :
    fromClientArgs (readTask (fun _ _ => none)
      [.msg BinaryMessage [0xDE, 0xAD, 0xBE, 0xEF], .err (.closeError 1000 "")]) =
      [[0xDE, 0xAD, 0xBE, 0xEF]] := by
  decide

/-- C6: when `conn.ReadMessage` returns an error after some messages, the read
task reports it once, wrapped as "read websocket message: ...", unless its chain
holds a `CloseError`, in which case nothing is reported; in both cases the loop
is left: only the deferred `wsConn.Close()` and `close(readDone)` follow, whatever
the connection would deliver afterwards. -/
theorem readTask_on_read_error (fc : Nat → Bytes → Option GoError)
    (pre : List (Nat × Bytes)) (e : GoError) (rest : List ReadResult) :
    readTask fc (asMsgs pre ++ ReadResult.err e :: rest) =
      (readLoop fc 0 (asMsgs pre)).1 ++
        Event.readMessage (.err e) ::
          ((if errorsAsCloseError e then []
            else [Event.eventError (.plain (.wrapped "read websocket message: %w" e))]) ++
           [Event.wsClose, Event.closeReadDone]) := by
  unfold readTask
  rw [readLoop_asMsgs_append]
  by_cases hc : errorsAsCloseError e = true <;> simp [readLoop, hc]

/-! ## The write pump -/

theorem writeCalls_append (a b : List Event) :
    writeCalls (a ++ b) = writeCalls a ++ writeCalls b := by
  induction a with
  | nil => rfl
  | cons e es ih => cases e <;> simp [writeCalls, ih]

theorem writeCalls_flatMap_sentOk (ps : List Bytes) :
    writeCalls (ps.flatMap sentOk) = ps.map (fun p => (TextMessage, p, none)) := by
  induction ps with
  | nil => rfl
  | cons p ps ih =>
    rw [List.flatMap_cons, writeCalls_append, ih]
    simp [sentOk, writeCalls]

theorem sendLoop_all_ok (wm : Nat → Nat → Bytes → Option GoError) (closes : Bool)
    (out : List Bytes) :
    ∀ n, (∀ i (hi : i < out.length), wm (n + i) TextMessage out[i] = none) →
      sendLoop wm closes n out =
        (out.flatMap sentOk ++ (if closes then [Event.recvOut none] else []),
         if closes then .returned none else .blocked) := by
  induction out with
  | nil => intro n _; cases closes <;> simp [sendLoop]
  | cons p ps ih =>
    intro n h
    have h0 : wm n TextMessage p = none := by simpa using h 0 (by simp)
    have hs : ∀ i (hi : i < ps.length), wm (n + 1 + i) TextMessage ps[i] = none := by
      intro i hi
      have := h (i + 1) (by simpa using hi)
      have e : n + 1 + i = n + (i + 1) := by omega
      simpa [e] using this
    simp [sendLoop, h0, ih (n + 1) hs, List.flatMap_cons, sentOk]

theorem sendLoop_first_failure (wm : Nat → Nat → Bytes → Option GoError) (closes : Bool)
    (out : List Bytes) :
    ∀ n k (hk : k < out.length) (e : GoError),
      (∀ j (hj : j < k), wm (n + j) TextMessage out[j] = none) →
      wm (n + k) TextMessage out[k] = some e →
      sendLoop wm closes n out =
        ((out.take k).flatMap sentOk ++
           [Event.recvOut (some out[k]), Event.writeMessage TextMessage out[k] (some e)],
         .returned (some (.wrapped "sending message: %w" e))) := by
  induction out with
  | nil => intro n k hk; simp at hk
  | cons p ps ih =>
    intro n k hk e hprev hfail
    cases k with
    | zero =>
      have h0 : wm n TextMessage p = some e := by simpa using hfail
      simp [sendLoop, h0]
    | succ k =>
      have h0 : wm n TextMessage p = none := by simpa using hprev 0 (by omega)
      have hk2 : k < ps.length := by simpa using hk
      have hs : ∀ j (hj : j < k), wm (n + 1 + j) TextMessage ps[j] = none := by
        intro j hj
        have := hprev (j + 1) (by omega)
        have e2 : n + 1 + j = n + (j + 1) := by omega
        simpa [e2] using this
      have hf : wm (n + 1 + k) TextMessage ps[k] = some e := by
        have e2 : n + 1 + k = n + (k + 1) := by omega
        simpa [e2] using hfail
      simp [sendLoop, h0, ih (n + 1) k hk2 e hs hf, List.flatMap_cons, sentOk]

theorem sendLoop_returns_nil_iff (wm : Nat → Nat → Bytes → Option GoError) (closes : Bool)
    (out : List Bytes) :
    ∀ n, (sendLoop wm closes n out).2 = .returned none ↔
      closes = true ∧ ∀ i (hi : i < out.length), wm (n + i) TextMessage out[i] = none := by
  induction out with
  | nil => intro n; cases closes <;> simp [sendLoop]
  | cons p ps ih =>
    intro n
    cases h0 : wm n TextMessage p with
    | some e =>
      simp only [sendLoop, h0]
      constructor
      · intro h; simp at h
      · intro h
        have := h.2 0 (by simp)
        simp [h0] at this
    | none =>
      simp only [sendLoop, h0]
      rw [ih (n + 1)]
      constructor
      · rintro ⟨hc, h⟩
        refine ⟨hc, ?_⟩
        intro i hi
        cases i with
        | zero => simpa using h0
        | succ i =>
          have := h i (by simpa using hi)
          have e2 : n + 1 + i = n + (i + 1) := by omega
          simpa [e2] using this
      · rintro ⟨hc, h⟩
        refine ⟨hc, ?_⟩
        intro i hi
        have := h (i + 1) (by simpa using hi)
        have e2 : n + 1 + i = n + (i + 1) := by omega
        simpa [e2] using this

/-- C2: when the outbound channel delivers the payloads `out` and is then closed,
and every `conn.WriteMessage` succeeds, `sendLoop` receives and writes the
payloads one by one, in channel order, each as a `TextMessage` with the payload
unchanged, and returns `nil` when it sees the channel closed. -/
theorem sendLoop_writes_each_payload (wm : Nat → Nat → Bytes → Option GoError)
    (out : List Bytes)
    (hok : ∀ i (hi : i < out.length), wm i TextMessage out[i] = none) :
    sendLoop wm true 0 out = (out.flatMap sentOk ++ [Event.recvOut none], .returned none) ∧
    writeCalls (sendLoop wm true 0 out).1 = out.map (fun p => (TextMessage, p, none)) := by
  have h := sendLoop_all_ok wm true out 0 (by simpa using hok)
  refine ⟨by simpa using h, ?_⟩
  rw [h]
  simp [writeCalls_append, writeCalls_flatMap_sentOk, writeCalls]

/-- C2, the scenario: the channel delivers "pong" and is closed; the client gets
exactly one text message "pong". -/
theorem sendLoop_pong :
    (∀ i (hi : i < [[(0x70 : UInt8), 0x6f, 0x6e, 0x67]].length),
        (fun _ _ _ => none : Nat → Nat → Bytes → Option GoError) i TextMessage
          [[(0x70 : UInt8), 0x6f, 0x6e, 0x67]][i] = none) ∧
    writeCalls (sendLoop (fun _ _ _ => none) true 0 [[0x70, 0x6f, 0x6e, 0x67]]).1 =
      [(TextMessage, [0x70, 0x6f, 0x6e, 0x67], none)] :=
  ⟨fun _ _ => rfl,
   (sendLoop_writes_each_payload (fun _ _ _ => none) [[0x70, 0x6f, 0x6e, 0x67]]
      (fun _ _ => rfl)).2⟩

/-- C7: when the `k`-th write (counted from 0) is the first that fails, `sendLoop`
has written the `k` payloads before it in order, tries the failing one once,
makes no further call and returns the write error wrapped as
"sending message: ..."; and `sendLoop` on a channel that is closed after `out`
returns `nil` exactly when no write fails. -/
theorem sendLoop_stops_at_first_write_error (wm : Nat → Nat → Bytes → Option GoError)
    (closes : Bool) (out : List Bytes) (k : Nat) (hk : k < out.length) (e : GoError)
    (hprev : ∀ j (hj : j < k), wm j TextMessage out[j] = none)
    (hfail : wm k TextMessage out[k] = some e) :
    sendLoop wm closes 0 out =
      ((out.take k).flatMap sentOk ++
         [Event.recvOut (some out[k]), Event.writeMessage TextMessage out[k] (some e)],
       .returned (some (.wrapped "sending message: %w" e))) ∧
    writeCalls (sendLoop wm closes 0 out).1 =
      (out.take k).map (fun p => (TextMessage, p, none)) ++ [(TextMessage, out[k], some e)] ∧
    (∀ (wm2 : Nat → Nat → Bytes → Option GoError) (out2 : List Bytes),
      (sendLoop wm2 true 0 out2).2 = .returned none ↔
        ∀ i (hi : i < out2.length), wm2 i TextMessage out2[i] = none) := by
  have h := sendLoop_first_failure wm closes out 0 k hk e (by simpa using hprev)
    (by simpa using hfail)
  refine ⟨h, ?_, ?_⟩
  · rw [h]
    simp [writeCalls_append, writeCalls_flatMap_sentOk, writeCalls]
  · intro wm2 out2
    simpa using sendLoop_returns_nil_iff wm2 true out2 0

/-! ## The two tasks together -/

theorem handleMessage_calls (fc : Nat → Bytes → Option GoError) (i k : Nat) (p : Bytes) :
    ∀ e ∈ handleMessage fc i k p, e.isReadCall = true := by
  unfold handleMessage
  cases fc i p <;> by_cases hk : k = BinaryMessage <;> simp [hk, Event.isReadCall]

theorem readLoop_calls (fc : Nat → Bytes → Option GoError) (feed : List ReadResult) :
    ∀ i, ∀ e ∈ (readLoop fc i feed).1, e.isReadCall = true := by
  induction feed with
  | nil => intro i; simp [readLoop]
  | cons r rest ih =>
    intro i
    cases r with
    | err e =>
      by_cases hc : errorsAsCloseError e = true <;> simp [readLoop, hc, Event.isReadCall]
    | msg k p =>
      intro e he
      have he2 : e = Event.readMessage (.msg k p) ∨ e ∈ handleMessage fc i k p ∨
          e ∈ (readLoop fc (i + 1) rest).1 := by
        simpa [readLoop] using he
      rcases he2 with h | h | h
      · subst h; rfl
      · exact handleMessage_calls fc i k p e h
      · exact ih (i + 1) e h

theorem sendLoop_calls (wm : Nat → Nat → Bytes → Option GoError) (closes : Bool)
    (out : List Bytes) : ∀ i, ∀ e ∈ (sendLoop wm closes i out).1, e.isSendCall = true := by
  induction out with
  | nil => intro i; cases closes <;> simp [sendLoop, Event.isSendCall]
  | cons p ps ih =>
    intro i
    cases h0 : wm i TextMessage p with
    | some err => simp [sendLoop, h0, Event.isSendCall]
    | none =>
      intro e he
      have he2 : e = Event.recvOut (some p) ∨ e = Event.writeMessage TextMessage p none ∨
          e ∈ (sendLoop wm closes (i + 1) ps).1 := by
        simpa [sendLoop, h0] using he
      rcases he2 with h | h | h
      · subst h; rfl
      · subst h; rfl
      · exact ih (i + 1) e h

theorem onlyLast_of_not_mem (c : Event) (l : List Event) (h : c ∉ l) : OnlyLast c l := by
  induction l with
  | nil => trivial
  | cons e rest ih =>
    simp only [List.mem_cons, not_or] at h
    exact ⟨fun he => absurd he.symm h.1, ih h.2⟩

theorem onlyLast_append_singleton (c : Event) (l : List Event) (h : c ∉ l) :
    OnlyLast c (l ++ [c]) := by
  induction l with
  | nil => exact ⟨fun _ => rfl, trivial⟩
  | cons e rest ih =>
    simp only [List.mem_cons, not_or] at h
    exact ⟨fun he => absurd he.symm h.1, ih h.2⟩

theorem doneBy_append_same (t : Task) (log : List (Task × Event)) (e : Event) :
    doneBy t (log ++ [(t, e)]) = doneBy t log ++ [e] := by
  simp [doneBy, List.filter_append]

theorem doneBy_append_other (t u : Task) (log : List (Task × Event)) (e : Event)
    (h : u ≠ t) : doneBy t (log ++ [(u, e)]) = doneBy t log := by
  simp [doneBy, List.filter_append, h]

theorem mem_doneBy (t : Task) (log : List (Task × Event)) (e : Event) :
    e ∈ doneBy t log ↔ (t, e) ∈ log := by
  simp only [doneBy, List.mem_map, List.mem_filter, decide_eq_true_eq]
  constructor
  · rintro ⟨⟨u, e2⟩, ⟨hm, hu⟩, he⟩
    simp only at hu he
    subst hu; subst he; exact hm
  · intro h
    exact ⟨(t, e), ⟨h, rfl⟩, rfl⟩

theorem step_main_some (s s2 : State) (h : step .main s = some s2) :
    ∃ e rest, s.main = e :: rest ∧ (e = Event.recvReadDone → s.readDone = true) ∧
      s2 = { s with main := rest, started := s.started || decide (e = Event.goRead),
                    log := s.log ++ [(Task.main, e)] } := by
  unfold step at h
  simp only at h
  split at h
  · cases h
  · rename_i e rest hm
    split at h
    · cases h
    · rename_i hn
      refine ⟨e, rest, hm, ?_, ?_⟩
      · intro he
        by_contra hr
        exact hn ⟨he, by simpa using hr⟩
      · cases h; rfl

theorem step_reader_some (s s2 : State) (h : step .reader s = some s2) :
    s.started = true ∧ ∃ e rest, s.reader = e :: rest ∧
      s2 = { s with reader := rest, readDone := s.readDone || decide (e = Event.closeReadDone),
                    log := s.log ++ [(Task.reader, e)] } := by
  unfold step at h
  simp only at h
  split at h
  · rename_i hs
    split at h
    · cases h
    · rename_i e rest hm
      exact ⟨hs, e, rest, hm, by cases h; rfl⟩
  · cases h

theorem inv_step_main (inp : Inputs) (s s2 : State) (hi : Inv inp s)
    (h : step .main s = some s2) : Inv inp s2 := by
  obtain ⟨e, rest, hm, hguard, rfl⟩ := step_main_some s s2 h
  have hml := hi.mainLast
  rw [hm] at hml
  have hnotret : (Task.main, Event.ret) ∉ s.log := by
    intro hr
    have := (hi.retEnd hr).1
    rw [hm] at this
    cases this
  constructor
  · exact hml.2
  · exact hi.readerLast
  · show doneBy Task.main (s.log ++ [(Task.main, e)]) ++ rest = mainTask inp
    rw [doneBy_append_same, ← hi.doneMain, hm]
    simp
  · show doneBy Task.reader (s.log ++ [(Task.main, e)]) ++ s.reader = _
    rw [doneBy_append_other _ _ _ _ (by decide)]
    exact hi.doneReader
  · show s.readDone = true ↔ (Task.reader, Event.closeReadDone) ∈ s.log ++ [(Task.main, e)]
    simp [hi.closedIff]
  · exact hi.closedEnd
  · intro hr
    have hr2 : (Task.main, Event.ret) ∈ s.log ++ [(Task.main, e)] := hr
    simp only [List.mem_append, List.mem_singleton, Prod.mk.injEq, true_and] at hr2
    rcases hr2 with hr2 | hr2
    · exact absurd hr2 hnotret
    · subst hr2
      have hrest : rest = [] := hml.1 rfl
      have hrd : s.readDone = true := by
        apply hi.waited hnotret
        · rw [hm, hrest]; simp
        · rw [hm]; simp
      exact ⟨hrest, hi.closedEnd hrd, hrd, s.log, rfl⟩
  · intro hr hw hin
    have hr2 : (Task.main, Event.ret) ∉ s.log ++ [(Task.main, e)] := hr
    have hw2 : Event.recvReadDone ∉ rest := hw
    have hin2 : Event.ret ∈ rest := hin
    by_cases he : e = Event.recvReadDone
    · exact hguard he
    · apply hi.waited hnotret
      · rw [hm]
        simp only [List.mem_cons, not_or]
        exact ⟨fun h2 => he h2.symm, hw2⟩
      · rw [hm]; exact List.mem_cons_of_mem _ hin2
  · intro hs
    have hs2 : (s.started || decide (e = Event.goRead)) = false := hs
    simp only [Bool.or_eq_false_iff, decide_eq_false_iff_not] at hs2
    obtain ⟨pfx, tl, hp, hnp⟩ := hi.notStarted hs2.1
    rw [hm] at hp
    cases pfx with
    | nil =>
      simp only [List.nil_append, List.cons.injEq] at hp
      exact absurd hp.1 hs2.2
    | cons x pfx2 =>
      simp only [List.cons_append, List.cons.injEq] at hp
      refine ⟨pfx2, tl, hp.2, ?_⟩
      intro h2
      exact hnp (List.mem_cons_of_mem _ h2)
  · exact hi.readerPending
  · intro hr hin
    have hr2 : (Task.main, Event.ret) ∉ s.log ++ [(Task.main, e)] := hr
    simp only [List.mem_append, List.mem_singleton, Prod.mk.injEq, true_and, not_or] at hr2
    have := hi.retPending hr2.1 hin
    rw [hm] at this
    simp only [List.mem_cons] at this
    rcases this with h2 | h2
    · exact absurd h2 hr2.2
    · exact h2
  · have := hi.size
    rw [hm] at this
    simp only [List.length_append, List.length_cons, List.length_nil] at this ⊢
    omega

theorem inv_step_reader (inp : Inputs) (s s2 : State) (hi : Inv inp s)
    (h : step .reader s = some s2) : Inv inp s2 := by
  obtain ⟨hst, e, rest, hm, rfl⟩ := step_reader_some s s2 h
  have hrl := hi.readerLast
  rw [hm] at hrl
  have hnotret : (Task.main, Event.ret) ∉ s.log := by
    intro hr
    have := (hi.retEnd hr).2.1
    rw [hm] at this
    cases this
  have hopen : s.readDone = false := by
    cases hd : s.readDone with
    | false => rfl
    | true =>
      have := hi.closedEnd hd
      rw [hm] at this
      cases this
  constructor
  · exact hi.mainLast
  · exact hrl.2
  · show doneBy Task.main (s.log ++ [(Task.reader, e)]) ++ s.main = _
    rw [doneBy_append_other _ _ _ _ (by decide)]
    exact hi.doneMain
  · show doneBy Task.reader (s.log ++ [(Task.reader, e)]) ++ rest = _
    rw [doneBy_append_same, ← hi.doneReader, hm]
    simp
  · show (s.readDone || decide (e = Event.closeReadDone)) = true ↔
      (Task.reader, Event.closeReadDone) ∈ s.log ++ [(Task.reader, e)]
    simp only [Bool.or_eq_true, decide_eq_true_eq, List.mem_append, List.mem_singleton,
      Prod.mk.injEq, true_and, hi.closedIff]
    constructor
    · rintro (h2 | h2)
      · exact Or.inl h2
      · exact Or.inr h2.symm
    · rintro (h2 | h2)
      · exact Or.inl h2
      · exact Or.inr h2.symm
  · intro hd
    have hd2 : (s.readDone || decide (e = Event.closeReadDone)) = true := hd
    simp only [hopen, Bool.false_or, decide_eq_true_eq] at hd2
    exact hrl.1 hd2
  · intro hr
    have hr2 : (Task.main, Event.ret) ∈ s.log ++ [(Task.reader, e)] := hr
    simp only [List.mem_append, List.mem_singleton, Prod.mk.injEq] at hr2
    rcases hr2 with hr2 | hr2
    · exact absurd hr2 hnotret
    · exact absurd hr2.1 (by decide)
  · intro _ hw hin
    have := hi.waited hnotret hw hin
    rw [hopen] at this
    cases this
  · intro hs
    have hs2 : s.started = false := hs
    rw [hst] at hs2
    cases hs2
  · intro hd hin
    have hd2 : (s.readDone || decide (e = Event.closeReadDone)) = false := hd
    simp only [Bool.or_eq_false_iff, decide_eq_false_iff_not] at hd2
    have := hi.readerPending hd2.1 hin
    rw [hm] at this
    simp only [List.mem_cons] at this
    rcases this with h2 | h2
    · exact absurd h2.symm hd2.2
    · exact h2
  · intro _ hin
    exact hi.retPending hnotret hin
  · have := hi.size
    rw [hm] at this
    simp only [List.length_append, List.length_cons, List.length_nil] at this ⊢
    omega

theorem inv_step (inp : Inputs) (t : Task) (s s2 : State) (hi : Inv inp s)
    (h : step t s = some s2) : Inv inp s2 := by
  cases t with
  | main => exact inv_step_main inp s s2 hi h
  | reader => exact inv_step_reader inp s s2 hi h

theorem inv_run (inp : Inputs) (sched : List Task) :
    ∀ s, Inv inp s → Inv inp (run sched s) := by
  induction sched with
  | nil => intro s hi; exact hi
  | cons t ts ih =>
    intro s hi
    unfold run
    cases h : step t s with
    | none => simpa using ih s hi
    | some s2 => simpa using ih s2 (inv_step inp t s s2 hi h)

theorem mainTask_blocked (inp : Inputs) (hu : inp.upgradeErr = none)
    (hb : (sendLoop inp.wm inp.closes 0 inp.out).2 = .blocked) :
    mainTask inp =
      [Event.upgrade none, Event.withCancel, Event.newWSConnection, Event.makeReadDone] ++
        Event.goRead :: Event.toClient :: (sendLoop inp.wm inp.closes 0 inp.out).1 := by
  simp [mainTask, hu, hb]

theorem mainTask_returned (inp : Inputs) (hu : inp.upgradeErr = none) (err : Option GoError)
    (hr : (sendLoop inp.wm inp.closes 0 inp.out).2 = .returned err) :
    mainTask inp =
      [Event.upgrade none, Event.withCancel, Event.newWSConnection, Event.makeReadDone] ++
        Event.goRead :: (Event.toClient :: (sendLoop inp.wm inp.closes 0 inp.out).1 ++
          err.toList.map Event.logPrintf ++ [Event.recvReadDone, Event.cancel, Event.ret]) := by
  cases err <;> simp [mainTask, hu, hr]

theorem ret_not_mem_sendLoop (wm : Nat → Nat → Bytes → Option GoError) (closes : Bool)
    (out : List Bytes) (i : Nat) : Event.ret ∉ (sendLoop wm closes i out).1 := by
  intro h
  have := sendLoop_calls wm closes out i _ h
  simp [Event.isSendCall] at this

theorem connClose_not_mem_sendLoop (wm : Nat → Nat → Bytes → Option GoError)
    (closes : Bool) (out : List Bytes) (i : Nat) :
    Event.connClose ∉ (sendLoop wm closes i out).1 := by
  intro h
  have := sendLoop_calls wm closes out i _ h
  simp [Event.isSendCall] at this

theorem connClose_not_mem_readLoop (fc : Nat → Bytes → Option GoError)
    (feed : List ReadResult) (i : Nat) : Event.connClose ∉ (readLoop fc i feed).1 := by
  intro h
  have := readLoop_calls fc feed i _ h
  simp [Event.isReadCall] at this

/-- The main task returns only when `sendLoop` has returned. -/
theorem ret_mem_mainTask (inp : Inputs) (hu : inp.upgradeErr = none)
    (h : Event.ret ∈ mainTask inp) :
    ∃ err, (sendLoop inp.wm inp.closes 0 inp.out).2 = .returned err := by
  cases hb : (sendLoop inp.wm inp.closes 0 inp.out).2 with
  | returned err => exact ⟨err, rfl⟩
  | blocked =>
    rw [mainTask_blocked inp hu hb] at h
    simp [ret_not_mem_sendLoop] at h

theorem onlyLast_mainTask (inp : Inputs) (hu : inp.upgradeErr = none) :
    OnlyLast Event.ret (mainTask inp) := by
  cases hb : (sendLoop inp.wm inp.closes 0 inp.out).2 with
  | blocked =>
    apply onlyLast_of_not_mem
    rw [mainTask_blocked inp hu hb]
    simp [ret_not_mem_sendLoop]
  | returned err =>
    have h := mainTask_returned inp hu err hb
    have h2 : mainTask inp =
        ([Event.upgrade none, Event.withCancel, Event.newWSConnection, Event.makeReadDone] ++
          Event.goRead :: (Event.toClient :: (sendLoop inp.wm inp.closes 0 inp.out).1 ++
            err.toList.map Event.logPrintf ++ [Event.recvReadDone, Event.cancel])) ++
          [Event.ret] := by
      rw [h]; simp
    rw [h2]
    apply onlyLast_append_singleton
    cases err <;> simp [ret_not_mem_sendLoop]

theorem readTask_left (fc : Nat → Bytes → Option GoError) (feed : List ReadResult)
    (h : (readLoop fc 0 feed).2 = true) :
    readTask fc feed = (readLoop fc 0 feed).1 ++ [Event.wsClose, Event.closeReadDone] := by
  simp [readTask, h]

theorem readTask_blocked (fc : Nat → Bytes → Option GoError) (feed : List ReadResult)
    (h : (readLoop fc 0 feed).2 = false) : readTask fc feed = (readLoop fc 0 feed).1 := by
  simp [readTask, h]

theorem onlyLast_readTask (fc : Nat → Bytes → Option GoError) (feed : List ReadResult) :
    OnlyLast Event.closeReadDone (readTask fc feed) := by
  cases h : (readLoop fc 0 feed).2 with
  | false =>
    rw [readTask_blocked fc feed h]
    exact onlyLast_of_not_mem _ _ (closeReadDone_not_mem_readLoop fc feed 0)
  | true =>
    rw [readTask_left fc feed h]
    have h2 : (readLoop fc 0 feed).1 ++ [Event.wsClose, Event.closeReadDone] =
        ((readLoop fc 0 feed).1 ++ [Event.wsClose]) ++ [Event.closeReadDone] := by simp
    rw [h2]
    apply onlyLast_append_singleton
    simp [closeReadDone_not_mem_readLoop]

/-- The read task closes `readDone` only when the loop was left. -/
theorem closeReadDone_mem_readTask (fc : Nat → Bytes → Option GoError)
    (feed : List ReadResult) :
    Event.closeReadDone ∈ readTask fc feed ↔ (readLoop fc 0 feed).2 = true := by
  cases h : (readLoop fc 0 feed).2 with
  | false =>
    rw [readTask_blocked fc feed h]
    simp [closeReadDone_not_mem_readLoop]
  | true =>
    rw [readTask_left fc feed h]
    simp

theorem inv_init (inp : Inputs) (hu : inp.upgradeErr = none) : Inv inp (init inp) := by
  constructor
  · exact onlyLast_mainTask inp hu
  · exact onlyLast_readTask inp.fc inp.feed
  · simp [init, doneBy]
  · simp [init, doneBy]
  · simp [init]
  · simp [init]
  · simp [init]
  · intro _ hw hin
    have hw2 : Event.recvReadDone ∉ mainTask inp := hw
    have hin2 : Event.ret ∈ mainTask inp := hin
    obtain ⟨err, hr⟩ := ret_mem_mainTask inp hu hin2
    rw [mainTask_returned inp hu err hr] at hw2
    simp at hw2
  · intro _
    cases hb : (sendLoop inp.wm inp.closes 0 inp.out).2 with
    | blocked =>
      exact ⟨_, _, mainTask_blocked inp hu hb, by simp⟩
    | returned err =>
      exact ⟨_, _, mainTask_returned inp hu err hb, by simp⟩
  · intro _ h; exact h
  · intro _ h; exact h
  · simp [init]

/-- Every state reached from the entry of `ServeHTTP` satisfies the invariant. -/
theorem inv_reach (inp : Inputs) (hu : inp.upgradeErr = none) (sched : List Task) :
    Inv inp (run sched (init inp)) :=
  inv_run inp sched _ (inv_init inp hu)

theorem run_append (a b : List Task) : ∀ s, run (a ++ b) s = run b (run a s) := by
  induction a with
  | nil => intro s; rfl
  | cons t ts ih =>
    intro s
    simp only [List.cons_append, run]
    cases step t s <;> simp [ih]

theorem step_none_of_done (t : Task) (s : State) (hm : s.main = []) (hr : s.reader = []) :
    step t s = none := by
  cases t <;> simp [step, hm, hr]

theorem run_of_done (sched : List Task) (s : State) (hm : s.main = []) (hr : s.reader = []) :
    run sched s = s := by
  induction sched with
  | nil => rfl
  | cons t ts ih => simp [run, step_none_of_done t s hm hr, ih]

theorem readLoop_left_mem (fc : Nat → Bytes → Option GoError) (feed : List ReadResult) :
    ∀ i, (readLoop fc i feed).2 = true →
      ∃ e, ReadResult.err e ∈ feed ∧ Event.readMessage (.err e) ∈ (readLoop fc i feed).1 := by
  induction feed with
  | nil => intro i h; simp [readLoop] at h
  | cons r rest ih =>
    intro i h
    cases r with
    | err e =>
      refine ⟨e, by simp, ?_⟩
      by_cases hc : errorsAsCloseError e = true <;> simp [readLoop, hc]
    | msg k p =>
      obtain ⟨e, he, hm⟩ := ih (i + 1) (by simpa [readLoop] using h)
      exact ⟨e, List.mem_cons_of_mem _ he, by simp [readLoop, hm]⟩

theorem sendLoop_closed_returns (wm : Nat → Nat → Bytes → Option GoError) (out : List Bytes) :
    ∀ i, ∃ err, (sendLoop wm true i out).2 = .returned err := by
  induction out with
  | nil => intro i; exact ⟨none, by simp [sendLoop]⟩
  | cons p ps ih =>
    intro i
    cases h0 : wm i TextMessage p with
    | some e => exact ⟨some (.wrapped "sending message: %w" e), by simp [sendLoop, h0]⟩
    | none =>
      obtain ⟨err, h⟩ := ih (i + 1)
      exact ⟨err, by simp [sendLoop, h0, h]⟩

/-- In a state in which `ServeHTTP` has returned, the read task has seen a read
error, has called `wsConn.Close()` and closed `readDone`, and both tasks have
made all their calls. -/
theorem after_return (inp : Inputs) (hu : inp.upgradeErr = none) (sched : List Task)
    (hret : (Task.main, Event.ret) ∈ (run sched (init inp)).log) :
    (run sched (init inp)).main = [] ∧ (run sched (init inp)).reader = [] ∧
    doneBy Task.main (run sched (init inp)).log = mainTask inp ∧
    doneBy Task.reader (run sched (init inp)).log = readTask inp.fc inp.feed ∧
    (readLoop inp.fc 0 inp.feed).2 = true ∧
    (Task.reader, Event.closeReadDone) ∈ (run sched (init inp)).log ∧
    ∃ pre, (run sched (init inp)).log = pre ++ [(Task.main, Event.ret)] := by
  have hi := inv_reach inp hu sched
  obtain ⟨hm, hr, hd, pre, hpre⟩ := hi.retEnd hret
  have h1 := hi.doneMain
  have h2 := hi.doneReader
  rw [hm, List.append_nil] at h1
  rw [hr, List.append_nil] at h2
  have hc := hi.closedIff.mp hd
  have hc2 : Event.closeReadDone ∈ readTask inp.fc inp.feed := by
    rw [← h2]; exact (mem_doneBy _ _ _).mpr hc
  exact ⟨hm, hr, h1, h2, (closeReadDone_mem_readTask _ _).mp hc2, hc, pre, hpre⟩

theorem step_main_enabled (s : State) (e : Event) (rest : List Event) (hm : s.main = e :: rest)
    (hg : e = Event.recvReadDone → s.readDone = true) : ∃ s2, step .main s = some s2 := by
  by_cases he : e = Event.recvReadDone
  · simp [step, hm, hg he]
  · simp [step, hm, he]

theorem step_reader_enabled (s : State) (e : Event) (rest : List Event)
    (hs : s.started = true) (hm : s.reader = e :: rest) : ∃ s2, step .reader s = some s2 := by
  simp [step, hm, hs]

/-- No deadlock: when `sendLoop` returns and the reads end in an error, some
task can move in every reached state in which `ServeHTTP` has not returned. -/
theorem progress (inp : Inputs) (s : State) (hi : Inv inp s)
    (hmain : Event.ret ∈ mainTask inp)
    (hread : Event.closeReadDone ∈ readTask inp.fc inp.feed)
    (hnot : (Task.main, Event.ret) ∉ s.log) : ∃ t s2, step t s = some s2 := by
  have hin := hi.retPending hnot hmain
  cases hm : s.main with
  | nil => rw [hm] at hin; cases hin
  | cons e rest =>
    by_cases hg : e = Event.recvReadDone → s.readDone = true
    · obtain ⟨s2, h⟩ := step_main_enabled s e rest hm hg
      exact ⟨.main, s2, h⟩
    · simp only [Classical.not_imp] at hg
      obtain ⟨he, hrd⟩ := hg
      have hrd2 : s.readDone = false := by simpa using hrd
      have hst : s.started = true := by
        cases hs : s.started with
        | true => rfl
        | false =>
          obtain ⟨pfx, tl, hp, hnp⟩ := hi.notStarted hs
          rw [hm] at hp
          cases pfx with
          | nil =>
            simp only [List.nil_append, List.cons.injEq] at hp
            rw [he] at hp
            cases hp.1
          | cons x pfx2 =>
            simp only [List.cons_append, List.cons.injEq] at hp
            rw [he] at hp
            exact absurd (by rw [← hp.1]; simp) hnp
      have hc := hi.readerPending hrd2 hread
      cases hr : s.reader with
      | nil => rw [hr] at hc; cases hc
      | cons x xs =>
        obtain ⟨s2, h⟩ := step_reader_enabled s x xs hst hr
        exact ⟨.reader, s2, h⟩

theorem step_size (t : Task) (s s2 : State) (h : step t s = some s2) :
    s2.main.length + s2.reader.length + 1 = s.main.length + s.reader.length := by
  cases t with
  | main =>
    obtain ⟨e, rest, hm, _, rfl⟩ := step_main_some s s2 h
    simp only [hm, List.length_cons]
    omega
  | reader =>
    obtain ⟨_, e, rest, hm, rfl⟩ := step_reader_some s s2 h
    simp only [hm, List.length_cons]
    omega

/-- Bounded return: under the conditions of `progress`, from every reached state
the return of `ServeHTTP` is reached by a schedule no longer than the number of
calls still to make. -/
theorem reaches_return (inp : Inputs) (hmain : Event.ret ∈ mainTask inp)
    (hread : Event.closeReadDone ∈ readTask inp.fc inp.feed) :
    ∀ n (s : State), Inv inp s → s.main.length + s.reader.length ≤ n →
      ∃ more : List Task, more.length ≤ n ∧ (Task.main, Event.ret) ∈ (run more s).log := by
  intro n
  induction n with
  | zero =>
    intro s hi hn
    refine ⟨[], by simp, ?_⟩
    by_contra hnot
    have hin := hi.retPending hnot hmain
    have : s.main = [] := List.length_eq_zero.mp (by omega)
    rw [this] at hin
    cases hin
  | succ n ih =>
    intro s hi hn
    by_cases hret : (Task.main, Event.ret) ∈ s.log
    · exact ⟨[], by simp, hret⟩
    · obtain ⟨t, s2, hs⟩ := progress inp s hi hmain hread hret
      have hsz := step_size t s s2 hs
      obtain ⟨more, hl, hm⟩ := ih s2 (inv_step inp t s s2 hi hs) (by omega)
      refine ⟨t :: more, by simp; omega, ?_⟩
      simpa [run, hs] using hm

theorem connClose_not_mem_readTask (fc : Nat → Bytes → Option GoError)
    (feed : List ReadResult) : Event.connClose ∉ readTask fc feed := by
  cases h : (readLoop fc 0 feed).2 with
  | false => rw [readTask_blocked fc feed h]; exact connClose_not_mem_readLoop fc feed 0
  | true => rw [readTask_left fc feed h]; simp [connClose_not_mem_readLoop]

theorem connClose_not_mem_mainTask (inp : Inputs) (hu : inp.upgradeErr = none) :
    Event.connClose ∉ mainTask inp := by
  cases hb : (sendLoop inp.wm inp.closes 0 inp.out).2 with
  | blocked => rw [mainTask_blocked inp hu hb]; simp [connClose_not_mem_sendLoop]
  | returned err =>
    rw [mainTask_returned inp hu err hb]
    cases err <;> simp [connClose_not_mem_sendLoop]

/-- No reached state has a call of `conn.Close()` in its log. -/
theorem no_connClose (inp : Inputs) (hu : inp.upgradeErr = none) (sched : List Task) :
    ∀ x ∈ (run sched (init inp)).log, x.2 ≠ Event.connClose := by
  have hi := inv_reach inp hu sched
  rintro ⟨t, e⟩ hx he
  simp only at he
  subst he
  have hd := (mem_doneBy t _ _).mpr hx
  cases t with
  | main =>
    have : Event.connClose ∈ mainTask inp := by
      rw [← hi.doneMain]; exact List.mem_append_left _ hd
    exact connClose_not_mem_mainTask inp hu this
  | reader =>
    have : Event.connClose ∈ readTask inp.fc inp.feed := by
      rw [← hi.doneReader]; exact List.mem_append_left _ hd
    exact connClose_not_mem_readTask _ _ this

theorem mem_of_mem_append_ret (pre : List (Task × Event)) (x : Task × Event)
    (h : x ∈ pre ++ [(Task.main, Event.ret)]) (hx : x ≠ (Task.main, Event.ret)) : x ∈ pre := by
  simp only [List.mem_append, List.mem_singleton] at h
  rcases h with h | h
  · exact h
  · exact absurd h hx

/-- C3: after a successful upgrade, in every execution in which `ServeHTTP`
returns, the return is the last call of the execution: before it `sendLoop` has
returned and every other call of the main task is made, the read task has made
all its calls and closed `readDone`, and no task makes any call afterwards (so no
`ReadMessage` or `WriteMessage` follows the return). -/
theorem serveHTTP_returns_after_both_tasks (inp : Inputs) (sched : List Task)
    (hup : inp.upgradeErr = none)
    (hret : (Task.main, Event.ret) ∈ (run sched (init inp)).log) :
    ∃ pre, (run sched (init inp)).log = pre ++ [(Task.main, Event.ret)] ∧
      (∃ err, (sendLoop inp.wm inp.closes 0 inp.out).2 = .returned err) ∧
      doneBy Task.main pre ++ [Event.ret] = mainTask inp ∧
      doneBy Task.reader pre = readTask inp.fc inp.feed ∧
      (Task.reader, Event.closeReadDone) ∈ pre ∧
      ∀ more, (run (sched ++ more) (init inp)).log = (run sched (init inp)).log := by
  obtain ⟨hm, hr, h1, h2, _, hc, pre, hpre⟩ := after_return inp hup sched hret
  refine ⟨pre, hpre, ?_, ?_, ?_, ?_, ?_⟩
  · apply ret_mem_mainTask inp hup
    rw [← h1]
    exact (mem_doneBy _ _ _).mpr hret
  · rw [← h1, hpre, doneBy_append_same]
  · rw [← h2, hpre, doneBy_append_other _ _ _ _ (by decide)]
  · rw [hpre] at hc
    exact mem_of_mem_append_ret pre _ hc (by decide)
  · intro more
    rw [run_append, run_of_done more _ hm hr]

/-- C3, an execution: the "ping"/"pong" session under `pingPongSchedule`. -/
theorem serveHTTP_returns_after_both_tasks_pingPong :
    pingPong.upgradeErr = none ∧
    (Task.main, Event.ret) ∈ (run pingPongSchedule (init pingPong)).log ∧
    ∃ pre, (run pingPongSchedule (init pingPong)).log = pre ++ [(Task.main, Event.ret)] ∧
      (∃ err, (sendLoop pingPong.wm pingPong.closes 0 pingPong.out).2 = .returned err) ∧
      doneBy Task.main pre ++ [Event.ret] = mainTask pingPong ∧
      doneBy Task.reader pre = readTask pingPong.fc pingPong.feed ∧
      (Task.reader, Event.closeReadDone) ∈ pre ∧
      ∀ more, (run (pingPongSchedule ++ more) (init pingPong)).log =
        (run pingPongSchedule (init pingPong)).log :=
  ⟨rfl, by decide,
   serveHTTP_returns_after_both_tasks pingPong pingPongSchedule rfl (by decide)⟩

/-- C7, an execution: three payloads, the second write fails. -/
theorem sendLoop_second_write_fails :
    writeCalls (sendLoop failSecondWrite true 0 [[1], [2], [3]]).1 =
      [(TextMessage, [1], none), (TextMessage, [2], some (.leaf "broken pipe"))] ∧
    (sendLoop failSecondWrite true 0 [[1], [2], [3]]).2 =
      .returned (some (.wrapped "sending message: %w" (.leaf "broken pipe"))) := by
  have h := sendLoop_stops_at_first_write_error failSecondWrite true [[1], [2], [3]] 1
    (by decide) (.leaf "broken pipe")
    (by intro j hj; have : j = 0 := by omega
        subst this; rfl)
    rfl
  exact ⟨h.2.1, by rw [h.1]⟩

/-- C8, as stated, fails: the backend has ended its stream (the outbound channel
is closed, `sendLoop` returns `nil`) but the client stays connected and silent;
no execution reaches the return of `ServeHTTP`. -/
theorem idle_client_never_returns :
    idleClient.upgradeErr = none ∧ idleClient.closes = true ∧
    sendLoop idleClient.wm idleClient.closes 0 idleClient.out =
      ([Event.recvOut none], .returned none) ∧
    ¬ ∃ sched, (Task.main, Event.ret) ∈ (run sched (init idleClient)).log := by
  refine ⟨rfl, rfl, rfl, ?_⟩
  rintro ⟨sched, hret⟩
  obtain ⟨_, _, _, _, hl, _⟩ := after_return idleClient rfl sched hret
  simp [idleClient, readLoop] at hl

/-- C8, amended: when the outbound channel gets closed, `ServeHTTP` returns only
after `conn.ReadMessage` has returned an error; and when the reads do end in an
error, no reached state before the return is stuck and from each of them the
return is reached within as many steps as the two tasks have calls. -/
theorem serveHTTP_returns_once_reads_fail (inp : Inputs) (sched : List Task)
    (hup : inp.upgradeErr = none) (hclosed : inp.closes = true) :
    ((Task.main, Event.ret) ∈ (run sched (init inp)).log →
      ∃ e, ReadResult.err e ∈ inp.feed ∧
        (Task.reader, Event.readMessage (.err e)) ∈ (run sched (init inp)).log) ∧
    ((∃ e, ReadResult.err e ∈ inp.feed) →
      ((Task.main, Event.ret) ∉ (run sched (init inp)).log →
        ∃ t s2, step t (run sched (init inp)) = some s2) ∧
      ∃ more : List Task,
        more.length ≤ (mainTask inp).length + (readTask inp.fc inp.feed).length ∧
        (Task.main, Event.ret) ∈ (run (sched ++ more) (init inp)).log) := by
  have hi := inv_reach inp hup sched
  constructor
  · intro hret
    obtain ⟨_, _, _, h2, hl, _⟩ := after_return inp hup sched hret
    obtain ⟨e, he, hm⟩ := readLoop_left_mem inp.fc inp.feed 0 hl
    refine ⟨e, he, (mem_doneBy _ _ _).mp ?_⟩
    rw [h2, readTask_left _ _ hl]
    exact List.mem_append_left _ hm
  · intro herr
    have hl : (readLoop inp.fc 0 inp.feed).2 = true := (readLoop_left_iff _ _ 0).mpr herr
    have hread : Event.closeReadDone ∈ readTask inp.fc inp.feed :=
      (closeReadDone_mem_readTask _ _).mpr hl
    have hmain : Event.ret ∈ mainTask inp := by
      obtain ⟨err, hr⟩ := sendLoop_closed_returns inp.wm inp.out 0
      rw [← hclosed] at hr
      rw [mainTask_returned inp hup err hr]
      simp
    refine ⟨fun hnot => progress inp _ hi hmain hread hnot, ?_⟩
    obtain ⟨more, hlen, hm⟩ := reaches_return inp hmain hread _ _ hi (Nat.le_refl _)
    refine ⟨more, ?_, by rw [run_append]; exact hm⟩
    have := hi.size
    omega

/-- C8 amended, an execution: the "ping"/"pong" session at the point where the
main task has written "pong", `sendLoop` has returned and `<-readDone` is
awaited, while the goroutine has not yet made a call. -/
theorem serveHTTP_returns_once_reads_fail_pingPong :
    pingPong.upgradeErr = none ∧ pingPong.closes = true ∧
    (∃ e, ReadResult.err e ∈ pingPong.feed) ∧
    (Task.main, Event.ret) ∉ (run (List.replicate 9 Task.main) (init pingPong)).log ∧
    (∃ t s2, step t (run (List.replicate 9 Task.main) (init pingPong)) = some s2) ∧
    ∃ more : List Task,
      more.length ≤ (mainTask pingPong).length + (readTask pingPong.fc pingPong.feed).length ∧
      (Task.main, Event.ret) ∈
        (run (List.replicate 9 Task.main ++ more) (init pingPong)).log :=
  ⟨rfl, rfl, ⟨GoError.closeError 1000 "", by decide⟩, by decide,
   ((serveHTTP_returns_once_reads_fail pingPong (List.replicate 9 Task.main) rfl rfl).2
      ⟨GoError.closeError 1000 "", by decide⟩).1 (by decide),
   ((serveHTTP_returns_once_reads_fail pingPong (List.replicate 9 Task.main) rfl rfl).2
      ⟨GoError.closeError 1000 "", by decide⟩).2⟩

/-- C9, as stated, fails: the client closes, the backend ends its stream,
`ServeHTTP` returns, and no call of `conn.Close()` has been made. -/
theorem closingClient_returns_without_connClose :
    closingClient.upgradeErr = none ∧
    (Task.main, Event.ret) ∈ (run closingSchedule (init closingClient)).log ∧
    ∀ x ∈ (run closingSchedule (init closingClient)).log, x.2 ≠ Event.connClose := by
  decide

/-- C9, amended: on every path on which `ServeHTTP` returns after a successful
upgrade, the read task has seen a read error and called `wsConn.Close()`, and the
deferred `cancel()` has run, all before the return; no call of `conn.Close()` is
made on any path. -/
theorem serveHTTP_return_closes_wsConn_not_conn (inp : Inputs) (sched : List Task)
    (hup : inp.upgradeErr = none)
    (hret : (Task.main, Event.ret) ∈ (run sched (init inp)).log) :
    ∃ pre, (run sched (init inp)).log = pre ++ [(Task.main, Event.ret)] ∧
      (Task.reader, Event.wsClose) ∈ pre ∧
      (Task.main, Event.cancel) ∈ pre ∧
      (∃ e, (Task.reader, Event.readMessage (.err e)) ∈ pre) ∧
      ∀ x ∈ (run sched (init inp)).log, x.2 ≠ Event.connClose := by
  obtain ⟨_, _, h1, h2, hl, _, pre, hpre⟩ := after_return inp hup sched hret
  refine ⟨pre, hpre, ?_, ?_, ?_, no_connClose inp hup sched⟩
  · apply mem_of_mem_append_ret pre _ _ (by decide)
    rw [← hpre]
    apply (mem_doneBy _ _ _).mp
    rw [h2, readTask_left _ _ hl]
    simp
  · apply mem_of_mem_append_ret pre _ _ (by decide)
    rw [← hpre]
    apply (mem_doneBy _ _ _).mp
    rw [h1]
    have hin : Event.ret ∈ mainTask inp := by
      rw [← h1]; exact (mem_doneBy _ _ _).mpr hret
    obtain ⟨err, hr⟩ := ret_mem_mainTask inp hup hin
    rw [mainTask_returned inp hup err hr]
    simp
  · obtain ⟨e, _, hm⟩ := readLoop_left_mem inp.fc inp.feed 0 hl
    refine ⟨e, ?_⟩
    apply mem_of_mem_append_ret pre _ _ (by simp)
    rw [← hpre]
    apply (mem_doneBy _ _ _).mp
    rw [h2, readTask_left _ _ hl]
    exact List.mem_append_left _ hm

/-- C9 amended, an execution: the "ping"/"pong" session. -/
theorem serveHTTP_return_closes_wsConn_not_conn_pingPong :
    pingPong.upgradeErr = none ∧
    (Task.main, Event.ret) ∈ (run pingPongSchedule (init pingPong)).log ∧
    ∃ pre, (run pingPongSchedule (init pingPong)).log = pre ++ [(Task.main, Event.ret)] ∧
      (Task.reader, Event.wsClose) ∈ pre ∧
      (Task.main, Event.cancel) ∈ pre ∧
      (∃ e, (Task.reader, Event.readMessage (.err e)) ∈ pre) ∧
      ∀ x ∈ (run pingPongSchedule (init pingPong)).log, x.2 ≠ Event.connClose :=
  ⟨rfl, by decide,
   serveHTTP_return_closes_wsConn_not_conn pingPong pingPongSchedule rfl (by decide)⟩

/-- C10: when the reads end in an error the read task calls `wsConn.Close()`
exactly once, after all calls of the loop (the report of the read error included)
and right before `close(readDone)`; inside the loop, and as long as no read has
failed, it never calls `wsConn.Close()`; hence in every execution in which
`ServeHTTP` returns after a successful upgrade, `wsConn.Close()` has been called
before the return. -/
theorem readTask_calls_wsClose_once_at_its_end (inp : Inputs) (sched : List Task)
    (hup : inp.upgradeErr = none) :
    ((∃ e, ReadResult.err e ∈ inp.feed) →
      readTask inp.fc inp.feed =
        (readLoop inp.fc 0 inp.feed).1 ++ [Event.wsClose, Event.closeReadDone] ∧
      (readTask inp.fc inp.feed).count Event.wsClose = 1) ∧
    Event.wsClose ∉ (readLoop inp.fc 0 inp.feed).1 ∧
    ((¬ ∃ e, ReadResult.err e ∈ inp.feed) → Event.wsClose ∉ readTask inp.fc inp.feed) ∧
    ((Task.main, Event.ret) ∈ (run sched (init inp)).log →
      ∃ pre, (run sched (init inp)).log = pre ++ [(Task.main, Event.ret)] ∧
        (Task.reader, Event.wsClose) ∈ pre) := by
  have hnot := wsClose_not_mem_readLoop inp.fc inp.feed 0
  refine ⟨?_, hnot, ?_, ?_⟩
  · intro herr
    have hl : (readLoop inp.fc 0 inp.feed).2 = true := (readLoop_left_iff _ _ 0).mpr herr
    refine ⟨readTask_left _ _ hl, ?_⟩
    rw [readTask_left _ _ hl, List.count_append, List.count_eq_zero_of_not_mem hnot]
    decide
  · intro hno
    have hl : (readLoop inp.fc 0 inp.feed).2 = false := by
      cases h : (readLoop inp.fc 0 inp.feed).2 with
      | false => rfl
      | true => exact absurd ((readLoop_left_iff _ _ 0).mp h) hno
    rw [readTask_blocked _ _ hl]
    exact hnot
  · intro hret
    obtain ⟨_, _, _, h2, hl, _, pre, hpre⟩ := after_return inp hup sched hret
    refine ⟨pre, hpre, ?_⟩
    apply mem_of_mem_append_ret pre _ _ (by decide)
    rw [← hpre]
    apply (mem_doneBy _ _ _).mp
    rw [h2, readTask_left _ _ hl]
    simp

/-- C10, an execution: the "ping"/"pong" session. -/
theorem readTask_calls_wsClose_once_pingPong :
    pingPong.upgradeErr = none ∧
    (readTask pingPong.fc pingPong.feed).count Event.wsClose = 1 ∧
    ∃ pre, (run pingPongSchedule (init pingPong)).log = pre ++ [(Task.main, Event.ret)] ∧
      (Task.reader, Event.wsClose) ∈ pre :=
  ⟨rfl,
   ((readTask_calls_wsClose_once_at_its_end pingPong pingPongSchedule rfl).1
      ⟨GoError.closeError 1000 "", by decide⟩).2,
   (readTask_calls_wsClose_once_at_its_end pingPong pingPongSchedule rfl).2.2.2 (by decide)⟩

end WSProxy
